import Mathlib

/-!
Shallow embedding of the top-K largest-file scanner from `src/main.rs`.

The source program scans a directory tree with `walkdir`, keeps only regular
files with non-zero size, and feeds them into `FileCollection::smart_insert`,
a bounded container of capacity `max_size` (the CLI `count`).  File sizes are
`u64` in Rust; only comparisons are performed on them, so they are embedded
as `Nat`.
-/

/-- `FileData` from the source: one file's path and byte size. -/
structure FileData where
  path : String
  size : Nat
deriving DecidableEq, Repr, Inhabited

/-- `FileCollection` from the source: the kept entries and the capacity. -/
structure FileCollection where
  files : List FileData
  max_size : Nat
deriving DecidableEq, Repr

/-- `FileCollection::new`: empty container with the given capacity. -/
def FileCollection.new (max_size : Nat) : FileCollection :=
  { files := [], max_size := max_size }

/-- The loop of Rust `core`'s `slice::binary_search_by` (the branchless
version: `while size > 1 { half := size/2; mid := base+half; base := if
f(mid) == Greater then base else mid; size -= half }`).  The `fuel`
argument only bounds the iteration count to make the recursion structural;
the Rust loop terminates because `size` strictly shrinks, and every call
site passes `fuel = size`, which is enough (each step at least halves). -/
def binSearchLoop (f : Nat → Ordering) : Nat → Nat → Nat → Nat
  | 0, base, _ => base
  | fuel + 1, base, size =>
    if 1 < size then
      if f (base + size / 2) = Ordering.gt then binSearchLoop f fuel base (size - size / 2)
      else binSearchLoop f fuel (base + size / 2) (size - size / 2)
    else base

/-- Rust `core`'s `slice::binary_search_by` on a list of `FileData`:
returns `.ok i` when `f` answers `Equal` at the converged index, else
`.error` of the insertion index.  Out-of-range reads cannot happen (the
converged index is below the length); `getD ... default` stands for the
(in-bounds) slice indexing. -/
def binarySearchBy (f : FileData → Ordering) (l : List FileData) : Except Nat Nat :=
  if l.length = 0 then Except.error 0
  else
    let base := binSearchLoop (fun i => f (l.getD i default)) l.length 0 l.length
    match f (l.getD base default) with
    | Ordering.eq => Except.ok base
    | Ordering.lt => Except.error (base + 1)
    | Ordering.gt => Except.error base

/-- `FileCollection::find_insert_position`: `None` when empty or when the
target is strictly below the size of the last kept entry (the slice access
`files[len - 1]` is guarded by the emptiness test, mirrored by the nested
`if`); otherwise the binary-search position, `Ok` and `Err` alike. -/
def FileCollection.find_insert_position (c : FileCollection) (target_size : Nat) :
    Option Nat :=
  if c.files.isEmpty then none
  else if target_size < (c.files.getLastD default).size then none
  else
    match binarySearchBy (fun file => (compare file.size target_size).swap) c.files with
    | Except.ok pos => some pos
    | Except.error pos => some pos

/-- Insertion step of a stable descending-by-size sort: `x` is placed
before the first element whose size is less than or equal to `x`'s. -/
def insertDesc (x : FileData) : List FileData → List FileData
  | [] => [x]
  | y :: ys => if x.size < y.size then y :: insertDesc x ys else x :: y :: ys

/-- The source's `sort_by(|a, b| b.size.cmp(&a.size))`: Rust's `sort_by` is
a stable descending sort by size, modelled here as a stable insertion sort
(two stable sorts under the same comparator agree on every input, so this
is extensionally the behaviour of the source's library sort). -/
def sortByDesc : List FileData → List FileData
  | [] => []
  | x :: xs => insertDesc x (sortByDesc xs)

/-- `FileCollection::smart_insert`: push while below capacity (sorting once,
at the moment capacity is reached); once full, binary-search for a position
and, if one is found, insert there and pop the last element. -/
def FileCollection.smart_insert (c : FileCollection) (file : FileData) : FileCollection :=
  if c.files.length < c.max_size then
    let files' := c.files ++ [file]
    if files'.length = c.max_size then { c with files := sortByDesc files' }
    else { c with files := files' }
  else
    match c.find_insert_position file.size with
    | some index => { c with files := (c.files.insertIdx index file).dropLast }
    | none => c

/-- One directory-walk item as `main`'s loop sees it: either an error from
`walkdir`, or an entry with a file-type flag, the metadata result (`none`
models a failed `entry.metadata()`), and a path. -/
inductive WalkEntry where
  | ok (isFile : Bool) (metadata : Option Nat) (path : String)
  | err
deriving DecidableEq, Repr

/-- The body of `main`'s `for entry in WalkDir::new(..)` loop: skip walk
errors, non-files, entries whose metadata cannot be read, and zero-length
files; push everything else onto the `files` vector. -/
def walkStep (acc : List FileData) (e : WalkEntry) : List FileData :=
  match e with
  | WalkEntry.err => acc
  | WalkEntry.ok isFile md p =>
    if !isFile then acc
    else
      match md with
      | none => acc
      | some len => if len = 0 then acc else acc ++ [FileData.mk p len]

/-- The `files` vector built by `main`'s walk loop. -/
def collectFiles (entries : List WalkEntry) : List FileData :=
  entries.foldl walkStep []

/-- The whole scan of `main`: collect the qualifying files, then insert each
of them in order into a fresh `FileCollection` of capacity `count`. -/
def scan (count : Nat) (entries : List WalkEntry) : FileCollection :=
  (collectFiles entries).foldl FileCollection.smart_insert (FileCollection.new count)

/-- Modelled from the spec: the naive reference implementation that "fully
sorts all qualifying files descending by size and takes the first K". -/
def naiveTopK (k : Nat) (l : List FileData) : List FileData :=
  (sortByDesc l).take k

/-- Modelled from the spec: `BoundedTopK.merge` has no counterpart in
`src/` (the source's scan is single-threaded and never combines two
containers); per the spec it is "equivalent to having inserted every
element of `other` into `self` in order of decreasing size". -/
def FileCollection.merge (c other : FileCollection) : FileCollection :=
  (sortByDesc other.files).foldl FileCollection.smart_insert c

/-- Descending-by-size sortedness, the spec's order invariant. -/
abbrev SortedDesc (l : List FileData) : Prop :=
  List.Pairwise (fun a b => b.size ≤ a.size) l

/-! ### Helper lemmas: orderings, the binary-search loop, sorted lists -/

lemma swap_compare_eq_gt {s t : Nat} : ((compare s t).swap = Ordering.gt) ↔ s < t := by
  have h1 : (compare s t).swap = Ordering.gt ↔ compare s t = Ordering.lt := by
    cases compare s t <;> decide
  rw [h1, Nat.compare_eq_lt]

lemma swap_compare_eq_lt {s t : Nat} : ((compare s t).swap = Ordering.lt) ↔ t < s := by
  have h1 : (compare s t).swap = Ordering.lt ↔ compare s t = Ordering.gt := by
    cases compare s t <;> decide
  rw [h1, Nat.compare_eq_gt]

lemma swap_compare_eq_eq {s t : Nat} : ((compare s t).swap = Ordering.eq) ↔ s = t := by
  have h1 : (compare s t).swap = Ordering.eq ↔ compare s t = Ordering.eq := by
    cases compare s t <;> decide
  rw [h1, Nat.compare_eq_eq]

lemma binSearchLoop_range (f : Nat → Ordering) :
    ∀ (fuel base size : Nat), 1 ≤ size →
      base ≤ binSearchLoop f fuel base size ∧ binSearchLoop f fuel base size < base + size := by
  intro fuel
  induction fuel with
  | zero => intro base size h; simp only [binSearchLoop]; omega
  | succ n ih =>
    intro base size h
    by_cases hs : 1 < size
    · simp only [binSearchLoop, if_pos hs]
      by_cases hg : f (base + size / 2) = Ordering.gt
      · simp only [if_pos hg]
        have := ih base (size - size / 2) (by omega)
        omega
      · simp only [if_neg hg]
        have := ih (base + size / 2) (size - size / 2) (by omega)
        omega
    · simp only [binSearchLoop, if_neg hs]; omega

lemma binSearchLoop_not_gt (f : Nat → Ordering) :
    ∀ (fuel base size : Nat),
      binSearchLoop f fuel base size = base ∨ f (binSearchLoop f fuel base size) ≠ Ordering.gt := by
  intro fuel
  induction fuel with
  | zero => intro base size; exact Or.inl rfl
  | succ n ih =>
    intro base size
    by_cases hs : 1 < size
    · simp only [binSearchLoop, if_pos hs]
      by_cases hg : f (base + size / 2) = Ordering.gt
      · simp only [if_pos hg]; exact ih base (size - size / 2)
      · simp only [if_neg hg]
        rcases ih (base + size / 2) (size - size / 2) with h | h
        · right; rw [h]; exact hg
        · right; exact h
    · exact Or.inl (by simp only [binSearchLoop, if_neg hs])

lemma binSearchLoop_gt_above (f : Nat → Ordering)
    (hmono : ∀ i j, i ≤ j → f i = Ordering.gt → f j = Ordering.gt) :
    ∀ (fuel base size : Nat), size ≤ fuel →
      ∀ i, binSearchLoop f fuel base size < i → i < base + size → f i = Ordering.gt := by
  intro fuel
  induction fuel with
  | zero =>
    intro base size hf i h1 h2
    simp only [binSearchLoop] at h1
    omega
  | succ n ih =>
    intro base size hf i h1 h2
    by_cases hs : 1 < size
    · simp only [binSearchLoop, if_pos hs] at h1
      by_cases hg : f (base + size / 2) = Ordering.gt
      · rw [if_pos hg] at h1
        by_cases hi : i < base + (size - size / 2)
        · exact ih base (size - size / 2) (by omega) i h1 hi
        · exact hmono (base + size / 2) i (by omega) hg
      · rw [if_neg hg] at h1
        exact ih (base + size / 2) (size - size / 2) (by omega) i h1 (by omega)
    · simp only [binSearchLoop, if_neg hs] at h1
      omega

lemma sortedDesc_le {l : List FileData} (hs : SortedDesc l) {i j : Nat}
    (hi : i < l.length) (hj : j < l.length) (hij : i ≤ j) :
    l[j].size ≤ l[i].size := by
  rcases Nat.eq_or_lt_of_le hij with h | h
  · subst h; exact le_refl _
  · exact (List.pairwise_iff_getElem.mp hs) i j hi hj h

lemma getLastD_eq_getLast {l : List FileData} (h : l ≠ []) :
    l.getLastD default = l.getLast h := by
  rw [List.getLastD_eq_getLast?, List.getLast?_eq_getLast _ h, Option.getD_some]

lemma sortedDesc_getLast_min {l : List FileData} (hs : SortedDesc l) (h : l ≠ [])
    {x : FileData} (hx : x ∈ l) : (l.getLastD default).size ≤ x.size := by
  rw [getLastD_eq_getLast h]
  have hsplit := List.dropLast_concat_getLast h
  have hpw : SortedDesc (l.dropLast ++ [l.getLast h]) := by
    rw [hsplit]; exact hs
  rcases List.pairwise_append.mp hpw with ⟨_, _, hcross⟩
  rcases List.mem_append.mp (by rw [hsplit]; exact hx) with hxd | hxl
  · exact hcross x hxd (l.getLast h) (List.mem_singleton.mpr rfl)
  · rw [List.mem_singleton.mp hxl]

lemma mem_take_getElem {l : List FileData} {pos : Nat} {a : FileData} (h : a ∈ l.take pos) :
    ∃ i, ∃ hi : i < l.length, i < pos ∧ l[i] = a := by
  rcases List.mem_iff_getElem.mp h with ⟨i, hi, hgi⟩
  have hi' := hi
  rw [List.length_take, lt_min_iff] at hi'
  refine ⟨i, hi'.2, hi'.1, ?_⟩
  rw [← List.getElem_take l (h := hi)]
  exact hgi

lemma mem_drop_getElem {l : List FileData} {pos : Nat} {a : FileData} (h : a ∈ l.drop pos) :
    ∃ i, ∃ hi : pos + i < l.length, l[pos + i] = a := by
  rcases List.mem_iff_getElem.mp h with ⟨i, hi, hgi⟩
  have hi' := hi
  rw [List.length_drop] at hi'
  refine ⟨i, by omega, ?_⟩
  rw [← List.getElem_drop l (h := hi)]
  exact hgi

lemma find_insert_position_spec {c : FileCollection} {t : Nat}
    (hs : SortedDesc c.files) (hne : c.files ≠ [])
    (hge : ¬ t < (c.files.getLastD default).size) :
    ∃ pos, c.find_insert_position t = some pos ∧ pos < c.files.length ∧
      (∀ a ∈ c.files.take pos, t ≤ a.size) ∧
      (∀ b ∈ c.files.drop pos, b.size ≤ t) := by
  have hn : 1 ≤ c.files.length := by
    cases hl : c.files with
    | nil => exact absurd hl hne
    | cons a s => simp
  have hemp : c.files.isEmpty = false := by
    cases hl : c.files with
    | nil => exact absurd hl hne
    | cons a s => rfl
  have hlen0 : ¬ (c.files.length = 0) := by omega
  set l := c.files with hldef
  set f' : Nat → Ordering := fun i => (compare (l.getD i default).size t).swap with hf'
  set b : Nat := binSearchLoop f' l.length 0 l.length with hbdef
  have hrange := binSearchLoop_range f' l.length 0 l.length hn
  have hbl : b < l.length := by omega
  have hgetb : l.getD b default = l[b] := List.getD_eq_getElem l default hbl
  have hlastle : (l.getLast hne).size ≤ t := by
    rw [getLastD_eq_getLast hne] at hge
    omega
  have hmono : ∀ i j, i ≤ j → f' i = Ordering.gt → f' j = Ordering.gt := by
    intro i j hij hi
    rw [hf'] at hi ⊢
    simp only at hi ⊢
    rw [swap_compare_eq_gt] at hi
    rw [swap_compare_eq_gt]
    by_cases hj : j < l.length
    · have hi' : i < l.length := by omega
      rw [List.getD_eq_getElem l default hj]
      rw [List.getD_eq_getElem l default hi'] at hi
      exact lt_of_le_of_lt (sortedDesc_le hs hi' hj hij) hi
    · rw [List.getD_eq_default l default (by omega)]
      have hd : (default : FileData).size = 0 := rfl
      rw [hd]
      omega
  have hfip : FileCollection.find_insert_position c t =
      match binarySearchBy (fun file => (compare file.size t).swap) l with
      | Except.ok pos => some pos
      | Except.error pos => some pos := by
    rw [FileCollection.find_insert_position]
    rw [← hldef, if_neg (by rw [hemp]; exact Bool.false_ne_true), if_neg hge]
  have hbs : binarySearchBy (fun file => (compare file.size t).swap) l =
      match f' b with
      | Ordering.eq => Except.ok b
      | Ordering.lt => Except.error (b + 1)
      | Ordering.gt => Except.error b := by
    rw [binarySearchBy, if_neg hlen0]
  cases hfb : f' b with
  | eq =>
    have hsize : l[b].size = t := by
      rw [hf'] at hfb; simp only at hfb
      rw [swap_compare_eq_eq] at hfb
      rw [← hgetb]; exact hfb
    refine ⟨b, ?_, hbl, ?_, ?_⟩
    · rw [hfip, hbs, hfb]
    · intro a ha
      rcases mem_take_getElem ha with ⟨i, hi, hip, rfl⟩
      calc t = l[b].size := hsize.symm
        _ ≤ l[i].size := sortedDesc_le hs hi hbl (by omega)
    · intro x hx
      rcases mem_drop_getElem hx with ⟨i, hi, rfl⟩
      calc l[b + i].size ≤ l[b].size := sortedDesc_le hs hbl hi (by omega)
        _ = t := hsize
  | lt =>
    have hsize : t < l[b].size := by
      rw [hf'] at hfb; simp only at hfb
      rw [swap_compare_eq_lt] at hfb
      rw [← hgetb]; exact hfb
    have hb1 : b + 1 < l.length := by
      by_contra hcon
      have hbeq : l[b] = l.getLast hne := by
        rw [List.getLast_eq_getElem]
        congr 1
        omega
      rw [hbeq] at hsize
      omega
    refine ⟨b + 1, ?_, hb1, ?_, ?_⟩
    · rw [hfip, hbs, hfb]
    · intro a ha
      rcases mem_take_getElem ha with ⟨i, hi, hip, rfl⟩
      have := sortedDesc_le hs hi hbl (by omega)
      omega
    · intro x hx
      rcases mem_drop_getElem hx with ⟨i, hi, rfl⟩
      have hgt := binSearchLoop_gt_above f' hmono l.length 0 l.length (le_refl _)
        (b + 1 + i) (by omega) (by omega)
      rw [hf'] at hgt; simp only at hgt
      rw [swap_compare_eq_gt, List.getD_eq_getElem l default hi] at hgt
      omega
  | gt =>
    have hsize : l[b].size < t := by
      rw [hf'] at hfb; simp only at hfb
      rw [swap_compare_eq_gt] at hfb
      rw [← hgetb]; exact hfb
    have hb0 : b = 0 := by
      rcases binSearchLoop_not_gt f' l.length 0 l.length with h | h
      · rw [hbdef]; exact h
      · exact absurd hfb h
    refine ⟨b, ?_, hbl, ?_, ?_⟩
    · rw [hfip, hbs, hfb]
    · intro a ha
      rw [hb0, List.take_zero] at ha
      exact absurd ha (List.not_mem_nil a)
    · intro x hx
      rcases mem_drop_getElem hx with ⟨i, hi, rfl⟩
      have := sortedDesc_le hs hbl hi (by omega)
      omega

lemma mem_insertIdx_any {x b : FileData} : ∀ (pos : Nat) (l : List FileData),
    b ∈ l.insertIdx pos x → b = x ∨ b ∈ l := by
  intro pos
  induction pos with
  | zero =>
    intro l h
    rw [List.insertIdx_zero] at h
    exact List.mem_cons.mp h
  | succ n ih =>
    intro l h
    cases l with
    | nil => rw [List.insertIdx_succ_nil] at h; exact absurd h (List.not_mem_nil b)
    | cons a s =>
      rw [List.insertIdx_succ_cons] at h
      rcases List.mem_cons.mp h with h | h
      · right; rw [h]; exact List.mem_cons_self a s
      · rcases ih s h with h | h
        · left; exact h
        · right; exact List.mem_cons_of_mem a h

lemma length_insertIdx_le {x : FileData} : ∀ (pos : Nat) (l : List FileData),
    (l.insertIdx pos x).length ≤ l.length + 1 := by
  intro pos
  induction pos with
  | zero => intro l; rw [List.insertIdx_zero]; simp
  | succ n ih =>
    intro l
    cases l with
    | nil => rw [List.insertIdx_succ_nil]; simp
    | cons a s =>
      rw [List.insertIdx_succ_cons]
      have := ih s
      simpa using this

lemma sortedDesc_insertIdx {x : FileData} : ∀ (pos : Nat) (l : List FileData),
    SortedDesc l → (∀ a ∈ l.take pos, x.size ≤ a.size) →
    (∀ b ∈ l.drop pos, b.size ≤ x.size) →
    SortedDesc (l.insertIdx pos x) := by
  intro pos
  induction pos with
  | zero =>
    intro l hs hta hdr
    rw [List.insertIdx_zero]
    refine List.Pairwise.cons ?_ hs
    intro b hb
    exact hdr b (by rw [List.drop_zero]; exact hb)
  | succ n ih =>
    intro l hs hta hdr
    cases l with
    | nil => rw [List.insertIdx_succ_nil]; exact hs
    | cons a s =>
      rw [List.insertIdx_succ_cons]
      rcases List.pairwise_cons.mp hs with ⟨ha, hs'⟩
      refine List.Pairwise.cons ?_ (ih s hs' ?_ ?_)
      · intro b hb
        rcases mem_insertIdx_any n s hb with rfl | hbs
        · exact hta a (by rw [List.take_succ_cons]; exact List.mem_cons_self _ _)
        · exact ha b hbs
      · intro a' ha'
        exact hta a' (by rw [List.take_succ_cons]; exact List.mem_cons_of_mem _ ha')
      · intro b hb
        exact hdr b (by rw [List.drop_succ_cons]; exact hb)

lemma insertIdx_append_left {x : FileData} : ∀ (A B : List FileData) (pos : Nat),
    pos ≤ A.length → (A ++ B).insertIdx pos x = A.insertIdx pos x ++ B := by
  intro A
  induction A with
  | nil =>
    intro B pos h
    have : pos = 0 := by simpa using h
    subst this
    rw [List.insertIdx_zero, List.insertIdx_zero]
    rfl
  | cons a s ih =>
    intro B pos h
    cases pos with
    | zero => rw [List.insertIdx_zero, List.insertIdx_zero]; rfl
    | succ n =>
      rw [List.cons_append, List.insertIdx_succ_cons, List.insertIdx_succ_cons,
        ih B n (by simpa using h), List.cons_append]

lemma dropLast_insertIdx {x : FileData} {l : List FileData} {pos : Nat}
    (h : pos < l.length) :
    (l.insertIdx pos x).dropLast = l.dropLast.insertIdx pos x := by
  have hne : l ≠ [] := by
    cases l with
    | nil => simp at h
    | cons a s => exact List.cons_ne_nil a s
  conv_lhs => rw [← List.dropLast_concat_getLast hne]
  rw [insertIdx_append_left _ _ pos (by rw [List.length_dropLast]; omega),
    List.dropLast_concat]

lemma insertDesc_perm (x : FileData) :
    ∀ (l : List FileData), (insertDesc x l).Perm (x :: l) := by
  intro l
  induction l with
  | nil => exact List.Perm.refl _
  | cons y ys ih =>
    rw [insertDesc]
    by_cases h : x.size < y.size
    · rw [if_pos h]
      exact (ih.cons y).trans (List.Perm.swap x y ys)
    · rw [if_neg h]

lemma mem_insertDesc {x b : FileData} {l : List FileData}
    (h : b ∈ insertDesc x l) : b = x ∨ b ∈ l := by
  have := (insertDesc_perm x l).mem_iff.mp h
  exact List.mem_cons.mp this

lemma insertDesc_sorted {x : FileData} :
    ∀ {l : List FileData}, SortedDesc l → SortedDesc (insertDesc x l) := by
  intro l
  induction l with
  | nil =>
    intro _
    exact List.pairwise_singleton _ x
  | cons y ys ih =>
    intro h
    rcases List.pairwise_cons.mp h with ⟨hy, hys⟩
    rw [insertDesc]
    by_cases hxy : x.size < y.size
    · rw [if_pos hxy]
      refine List.Pairwise.cons ?_ (ih hys)
      intro b hb
      rcases mem_insertDesc hb with rfl | hb
      · omega
      · exact hy b hb
    · rw [if_neg hxy]
      refine List.Pairwise.cons ?_ h
      intro b hb
      rcases List.mem_cons.mp hb with rfl | hb
      · omega
      · have := hy b hb
        omega

lemma sortByDesc_perm : ∀ (l : List FileData), (sortByDesc l).Perm l := by
  intro l
  induction l with
  | nil => exact List.Perm.refl _
  | cons x xs ih =>
    rw [sortByDesc]
    exact (insertDesc_perm x (sortByDesc xs)).trans (ih.cons x)

lemma sortByDesc_sorted : ∀ (l : List FileData), SortedDesc (sortByDesc l) := by
  intro l
  induction l with
  | nil => exact List.Pairwise.nil
  | cons x xs ih =>
    rw [sortByDesc]
    exact insertDesc_sorted ih

lemma sortByDesc_length (l : List FileData) : (sortByDesc l).length = l.length :=
  (sortByDesc_perm l).length_eq

/-- A container state reachable by the program: never over capacity, and
sorted descending whenever it is exactly at capacity. -/
abbrev GoodColl (c : FileCollection) : Prop :=
  c.files.length ≤ c.max_size ∧ (c.files.length = c.max_size → SortedDesc c.files)

/-- `T` is a top-`k` selection of population `S`: a sub-multiset of maximal
size (up to `k`) all of whose members dominate, by size, everything left
out of it. -/
def IsTopK (k : Nat) (T S : Multiset FileData) : Prop :=
  T ≤ S ∧ Multiset.card T = min k (Multiset.card S) ∧
    ∀ x ∈ T, ∀ y ∈ S - T, y.size ≤ x.size

lemma nat_min_facts (a b : Nat) : (min a b = a ∧ a ≤ b) ∨ (min a b = b ∧ b ≤ a) := by
  rcases Nat.le_total a b with h | h
  · left; exact ⟨Nat.min_eq_left h, h⟩
  · right; exact ⟨Nat.min_eq_right h, h⟩

lemma smart_insert_max_size (c : FileCollection) (f : FileData) :
    (c.smart_insert f).max_size = c.max_size := by
  rw [FileCollection.smart_insert]
  by_cases h : c.files.length < c.max_size
  · rw [if_pos h]
    by_cases h2 : (c.files ++ [f]).length = c.max_size
    · rw [if_pos h2]
    · rw [if_neg h2]
  · rw [if_neg h]
    cases hfip : c.find_insert_position f.size with
    | some idx => rfl
    | none => rfl

lemma smart_insert_files_push {c : FileCollection} {f : FileData}
    (hfull : c.files.length < c.max_size) (hK : ¬ (c.files ++ [f]).length = c.max_size) :
    (c.smart_insert f).files = c.files ++ [f] := by
  simp only [FileCollection.smart_insert]
  rw [if_pos hfull, if_neg hK]

lemma smart_insert_files_sort {c : FileCollection} {f : FileData}
    (hfull : c.files.length < c.max_size) (hK : (c.files ++ [f]).length = c.max_size) :
    (c.smart_insert f).files = sortByDesc (c.files ++ [f]) := by
  simp only [FileCollection.smart_insert]
  rw [if_pos hfull, if_pos hK]

lemma smart_insert_of_none {c : FileCollection} {f : FileData}
    (hfull : ¬ c.files.length < c.max_size)
    (hfip : c.find_insert_position f.size = none) :
    c.smart_insert f = c := by
  simp only [FileCollection.smart_insert]
  rw [if_neg hfull, hfip]

lemma smart_insert_files_ins {c : FileCollection} {f : FileData} {pos : Nat}
    (hfull : ¬ c.files.length < c.max_size)
    (hfip : c.find_insert_position f.size = some pos) :
    (c.smart_insert f).files = (c.files.insertIdx pos f).dropLast := by
  simp only [FileCollection.smart_insert]
  rw [if_neg hfull, hfip]

lemma find_insert_position_none_empty (c : FileCollection) (t : Nat)
    (h : c.files = []) : c.find_insert_position t = none := by
  rw [FileCollection.find_insert_position, if_pos (by rw [h]; rfl)]

lemma find_insert_position_none_less {c : FileCollection} {t : Nat}
    (hne : c.files ≠ []) (h : t < (c.files.getLastD default).size) :
    c.find_insert_position t = none := by
  rw [FileCollection.find_insert_position,
    if_neg (fun hh => hne (List.isEmpty_iff.mp hh)), if_pos h]

lemma isTopK_self {k : Nat} {S : Multiset FileData} (h : Multiset.card S ≤ k) :
    IsTopK k S S := by
  refine ⟨le_refl S, by rw [Nat.min_eq_right h], fun x hx y hy => ?_⟩
  rw [tsub_self] at hy
  exact absurd hy (Multiset.not_mem_zero y)

/-- Central invariant step: inserting a file into a reachable container that
holds a top-`K` selection of the population seen so far yields a reachable
container holding a top-`K` selection of the enlarged population. -/
lemma smart_insert_step {c : FileCollection} {S : Multiset FileData} (f : FileData)
    (hg : GoodColl c) (ht : IsTopK c.max_size (↑c.files) S) :
    GoodColl (c.smart_insert f) ∧
      IsTopK c.max_size (↑(c.smart_insert f).files) (S + {f}) := by
  rcases hg with ⟨hlen, hsort⟩
  rcases ht with ⟨hle, hcard, hdom⟩
  rw [Multiset.coe_card] at hcard
  have hcardST : c.files.length ≤ Multiset.card S := by
    have := Multiset.card_le_card hle
    rwa [Multiset.coe_card] at this
  by_cases hfull : c.files.length < c.max_size
  · -- below capacity: the whole population is kept, so T = S and we push
    have hTS : (↑c.files : Multiset FileData) = S := by
      refine Multiset.eq_of_le_of_card_le hle ?_
      rw [Multiset.coe_card]
      rcases nat_min_facts c.max_size (Multiset.card S) with ⟨h1, h2⟩ | ⟨h1, h2⟩ <;> omega
    have hcS : Multiset.card S = c.files.length := by
      rcases nat_min_facts c.max_size (Multiset.card S) with ⟨h1, h2⟩ | ⟨h1, h2⟩ <;> omega
    by_cases hK : (c.files ++ [f]).length = c.max_size
    · have hfe : (↑(c.smart_insert f).files : Multiset FileData) = S + {f} := by
        rw [smart_insert_files_sort hfull hK,
          Multiset.coe_eq_coe.mpr (sortByDesc_perm _), ← Multiset.coe_add,
          Multiset.coe_singleton, hTS]
      refine ⟨⟨?_, fun _ => ?_⟩, ?_⟩
      · rw [smart_insert_files_sort hfull hK, smart_insert_max_size,
          sortByDesc_length]
        omega
      · rw [smart_insert_files_sort hfull hK]
        exact sortByDesc_sorted _
      · rw [hfe]
        refine isTopK_self ?_
        rw [Multiset.card_add, Multiset.card_singleton]
        rw [List.length_append] at hK
        omega
    · have hfe : (↑(c.smart_insert f).files : Multiset FileData) = S + {f} := by
        rw [smart_insert_files_push hfull hK, ← Multiset.coe_add,
          Multiset.coe_singleton, hTS]
      refine ⟨⟨?_, fun hh => ?_⟩, ?_⟩
      · rw [smart_insert_files_push hfull hK, smart_insert_max_size,
          List.length_append]
        rw [List.length_append] at hK
        simp only [List.length_cons, List.length_nil] at *
        omega
      · rw [smart_insert_files_push hfull hK] at hh
        rw [smart_insert_max_size] at hh
        exact absurd hh hK
      · rw [hfe]
        refine isTopK_self ?_
        rw [Multiset.card_add, Multiset.card_singleton]
        rw [List.length_append] at hK
        simp only [List.length_cons, List.length_nil] at hK
        omega
  · -- at capacity
    have hKfiles : c.files.length = c.max_size := by omega
    by_cases hnil : c.files = []
    · -- capacity 0: nothing is ever inserted
      have hmax0 : c.max_size = 0 := by rw [← hKfiles, hnil]; rfl
      have hins : c.smart_insert f = c :=
        smart_insert_of_none hfull (find_insert_position_none_empty c f.size hnil)
      rw [hins]
      refine ⟨⟨hlen, hsort⟩, ?_, ?_, ?_⟩
      · rw [hnil]
        exact Multiset.zero_le _
      · rw [hmax0, hnil, Nat.zero_min]
        rfl
      · intro x hx
        rw [hnil] at hx
        exact absurd hx (Multiset.not_mem_zero x)
    · have hsorted : SortedDesc c.files := hsort hKfiles
      have hKpos : 1 ≤ c.files.length := by
        cases hl : c.files with
        | nil => exact absurd hl hnil
        | cons a s => simp
      have hminK : min c.max_size (Multiset.card S + 1) = c.max_size := by
        refine Nat.min_eq_left ?_
        omega
      by_cases hless : f.size < (c.files.getLastD default).size
      · -- strictly below the current minimum: discarded, container unchanged
        have hins : c.smart_insert f = c :=
          smart_insert_of_none hfull (find_insert_position_none_less hnil hless)
        rw [hins]
        refine ⟨⟨hlen, hsort⟩, le_trans hle (Multiset.le_add_right S {f}), ?_, ?_⟩
        · rw [Multiset.coe_card, Multiset.card_add, Multiset.card_singleton, hminK]
          omega
        · intro x hx y hy
          have hsub : S + {f} - ↑c.files = (S - ↑c.files) + {f} :=
            (tsub_add_eq_add_tsub hle).symm
          rw [hsub] at hy
          rcases Multiset.mem_add.mp hy with hyS | hyf
          · exact hdom x hx y hyS
          · rw [Multiset.mem_singleton.mp hyf]
            have := sortedDesc_getLast_min hsorted hnil (Multiset.mem_coe.mp hx)
            omega
      · -- at least the current minimum: insert, evicting the last element
        rcases find_insert_position_spec hsorted hnil hless with
          ⟨pos, hfip, hposlt, htake, hdrop⟩
        have hfilesEq := smart_insert_files_ins hfull hfip
        have hdl : (c.files.insertIdx pos f).dropLast =
            c.files.dropLast.insertIdx pos f := dropLast_insertIdx hposlt
        have hposdl : pos ≤ c.files.dropLast.length := by
          rw [List.length_dropLast]; omega
        have hlenX : (c.files.insertIdx pos f).dropLast.length = c.files.length := by
          rw [hdl, List.length_insertIdx pos _ hposdl, List.length_dropLast]
          omega
        have hsortedX : SortedDesc (c.files.insertIdx pos f).dropLast :=
          List.Pairwise.sublist (List.dropLast_sublist _)
            (sortedDesc_insertIdx pos c.files hsorted htake hdrop)
        have hcoe : (↑((c.files.insertIdx pos f).dropLast) : Multiset FileData) =
            {f} + ↑c.files.dropLast := by
          rw [hdl, Multiset.coe_eq_coe.mpr (List.perm_insertIdx f _ hposdl),
            ← Multiset.cons_coe, ← Multiset.singleton_add]
        have hmm : c.files.getLastD default = c.files.getLast hnil :=
          getLastD_eq_getLast hnil
        have hfilesplit : (↑c.files : Multiset FileData) =
            ↑c.files.dropLast + {c.files.getLast hnil} := by
          conv_lhs => rw [← List.dropLast_concat_getLast hnil]
          rw [← Multiset.coe_add, Multiset.coe_singleton]
        have hDle : (↑c.files.dropLast : Multiset FileData) ≤ ↑c.files := by
          rw [Multiset.coe_le]
          exact (List.dropLast_sublist _).subperm
        have hmf : (c.files.getLast hnil).size ≤ f.size := by
          rw [hmm] at hless; omega
        have hmmem : c.files.getLast hnil ∈ (↑c.files : Multiset FileData) := by
          rw [hfilesplit]
          exact Multiset.mem_add.mpr (Or.inr (Multiset.mem_singleton.mpr rfl))
        refine ⟨⟨?_, fun _ => ?_⟩, ?_, ?_, ?_⟩
        · rw [hfilesEq, smart_insert_max_size, hlenX]
          omega
        · rw [hfilesEq]
          exact hsortedX
        · rw [hfilesEq, hcoe, add_comm]
          exact add_le_add_right (le_trans hDle hle) {f}
        · rw [hfilesEq, Multiset.coe_card, hlenX,
            Multiset.card_add, Multiset.card_singleton, hminK]
          omega
        · rw [hfilesEq]
          intro x hx y hy
          rw [hcoe] at hx hy
          have hsub1 : S + {f} - ({f} + ↑c.files.dropLast) = S - ↑c.files.dropLast := by
            rw [tsub_add_eq_tsub_tsub, add_tsub_cancel_right]
          have hsub2 : S - ↑c.files.dropLast =
              (S - ↑c.files) + {c.files.getLast hnil} := by
            calc S - ↑c.files.dropLast
                = ((S - ↑c.files) + (↑c.files.dropLast + {c.files.getLast hnil})) -
                    ↑c.files.dropLast := by
                  rw [← hfilesplit, tsub_add_cancel_of_le hle]
              _ = (S - ↑c.files) + {c.files.getLast hnil} := by
                  have hcm : (↑c.files.dropLast : Multiset FileData) +
                      {c.files.getLast hnil} =
                      {c.files.getLast hnil} + ↑c.files.dropLast := add_comm _ _
                  rw [hcm, ← add_assoc, add_tsub_cancel_right]
          rw [hsub1, hsub2] at hy
          rcases Multiset.mem_add.mp hx with hxf | hxD
          · -- x is the newly inserted file
            rw [Multiset.mem_singleton.mp hxf]
            rcases Multiset.mem_add.mp hy with hyS | hym
            · have := hdom (c.files.getLast hnil) hmmem y hyS
              omega
            · rw [Multiset.mem_singleton.mp hym]
              exact hmf
          · -- x was already kept (and is not the evicted last element)
            have hxfiles : x ∈ (↑c.files : Multiset FileData) :=
              Multiset.mem_of_le hDle hxD
            rcases Multiset.mem_add.mp hy with hyS | hym
            · exact hdom x hxfiles y hyS
            · rw [Multiset.mem_singleton.mp hym, ← hmm]
              exact sortedDesc_getLast_min hsorted hnil (Multiset.mem_coe.mp hxfiles)

/-- Folding `smart_insert` over a list preserves reachability and keeps a
top-`K` selection of the accumulated population. -/
lemma foldl_smart_insert_inv {K : Nat} :
    ∀ (l : List FileData) (c : FileCollection) (S : Multiset FileData),
      c.max_size = K → GoodColl c → IsTopK K (↑c.files) S →
      GoodColl (l.foldl FileCollection.smart_insert c) ∧
         (l.foldl FileCollection.smart_insert c).max_size = K ∧
        IsTopK K (↑(l.foldl FileCollection.smart_insert c).files) (S + ↑l) := by
  intro l
  induction l with
  | nil =>
    intro c S hm hg ht
    rw [List.foldl_nil, Multiset.coe_nil, add_zero]
    exact ⟨hg, hm, ht⟩
  | cons f t ih =>
    intro c S hm hg ht
    rw [List.foldl_cons]
    have ht' : IsTopK c.max_size (↑c.files) S := by rw [hm]; exact ht
    have hstep := smart_insert_step f hg ht'
    have hm' : (c.smart_insert f).max_size = K := by rw [smart_insert_max_size]; exact hm
    have htK : IsTopK K (↑(c.smart_insert f).files) (S + {f}) := by
      rw [← hm]; exact hstep.2
    have := ih (c.smart_insert f) (S + {f}) hm' hstep.1 htK
    have hre : (S + {f}) + (↑t : Multiset FileData) = S + ↑(f :: t) := by
      rw [← Multiset.cons_coe, ← Multiset.singleton_add, add_assoc]
    rw [hre] at this
    exact this

lemma good_new (K : Nat) : GoodColl (FileCollection.new K) := by
  constructor
  · rw [FileCollection.new]; exact Nat.zero_le K
  · intro _
    exact List.Pairwise.nil

lemma isTopK_zero (K : Nat) : IsTopK K 0 0 := by
  refine ⟨le_refl _, ?_, ?_⟩
  · rw [Multiset.card_zero, Nat.min_zero]
  · intro x hx
    exact absurd hx (Multiset.not_mem_zero x)

/-- Main fold invariant from a fresh collection. -/
lemma foldl_from_new_inv (K : Nat) (l : List FileData) :
    GoodColl (l.foldl FileCollection.smart_insert (FileCollection.new K)) ∧
      (l.foldl FileCollection.smart_insert (FileCollection.new K)).max_size = K ∧
      IsTopK K (↑(l.foldl FileCollection.smart_insert (FileCollection.new K)).files) (↑l) := by
  have h := foldl_smart_insert_inv l (FileCollection.new K) 0 rfl (good_new K) (isTopK_zero K)
  rwa [zero_add] at h

/-- While the container stays strictly below capacity, `smart_insert` is a
plain push: the files are kept verbatim, in arrival order. -/
lemma foldl_under_cap :
    ∀ (l : List FileData) (c : FileCollection),
      c.files.length + l.length < c.max_size →
      (l.foldl FileCollection.smart_insert c).files = c.files ++ l := by
  intro l
  induction l with
  | nil => intro c h; rw [List.foldl_nil, List.append_nil]
  | cons f t ih =>
    intro c h
    rw [List.length_cons] at h
    rw [List.foldl_cons]
    have h1 : c.files.length < c.max_size := by omega
    have h2 : ¬ (c.files ++ [f]).length = c.max_size := by
      rw [List.length_append, List.length_cons, List.length_nil]; omega
    have hfe := smart_insert_files_push h1 h2
    have hih := ih (c.smart_insert f) (by
      rw [hfe, smart_insert_max_size, List.length_append, List.length_cons,
        List.length_nil]
      omega)
    rw [hih, hfe, List.append_assoc, List.singleton_append]

/-- The `Nat` shadow of `IsTopK`, on the multiset of sizes. -/
def IsTopKN (k : Nat) (T S : Multiset Nat) : Prop :=
  T ≤ S ∧ Multiset.card T = min k (Multiset.card S) ∧
    ∀ x ∈ T, ∀ y ∈ S - T, y ≤ x

lemma isTopK_map_size {k : Nat} {T S : Multiset FileData} (h : IsTopK k T S) :
    IsTopKN k (T.map FileData.size) (S.map FileData.size) := by
  rcases h with ⟨hle, hcard, hdom⟩
  have hSsplit : (S - T) + T = S := tsub_add_cancel_of_le hle
  have hmaps : Multiset.map FileData.size S - Multiset.map FileData.size T =
      Multiset.map FileData.size (S - T) := by
    conv_lhs => rw [← hSsplit]
    rw [Multiset.map_add, add_tsub_cancel_right]
  refine ⟨Multiset.map_le_map hle, ?_, ?_⟩
  · rw [Multiset.card_map, Multiset.card_map]; exact hcard
  · intro x hx y hy
    rw [hmaps] at hy
    rcases Multiset.mem_map.mp hx with ⟨a, ha, rfl⟩
    rcases Multiset.mem_map.mp hy with ⟨b, hb, rfl⟩
    exact hdom a ha b hb

lemma isTopKN_count_lt_false {k : Nat} {T₁ T₂ S : Multiset Nat} {v : Nat}
    (h₁ : IsTopKN k T₁ S) (h₂ : IsTopKN k T₂ S)
    (hv : Multiset.count v T₁ < Multiset.count v T₂) : False := by
  rcases h₁ with ⟨hle₁, hcard₁, hdom₁⟩
  rcases h₂ with ⟨hle₂, hcard₂, hdom₂⟩
  have hvS : Multiset.count v T₂ ≤ Multiset.count v S := Multiset.count_le_of_le v hle₂
  have hvmem1 : v ∈ S - T₁ := by
    rw [← Multiset.count_pos, Multiset.count_sub]
    omega
  have hallge : ∀ x ∈ T₁, v ≤ x := fun x hx => hdom₁ x hx v hvmem1
  -- T₁ splits into the part strictly above v and the copies of v itself
  have hsplit1 : Multiset.card (Multiset.filter (fun x => v < x) T₁) +
      Multiset.count v T₁ = Multiset.card T₁ := by
    have h2 : Multiset.filter (fun x => ¬ v < x) T₁ =
        Multiset.filter (fun x => v = x) T₁ := by
      refine Multiset.filter_congr ?_
      intro x hx
      have := hallge x hx
      constructor
      · intro hh; omega
      · intro hh; omega
    calc Multiset.card (Multiset.filter (fun x => v < x) T₁) + Multiset.count v T₁
        = Multiset.card (Multiset.filter (fun x => v < x) T₁) +
            Multiset.card (Multiset.filter (fun x => ¬ v < x) T₁) := by
          rw [h2, Multiset.count_eq_card_filter_eq]
      _ = Multiset.card T₁ := by
          rw [← Multiset.card_add, Multiset.filter_add_not]
  have hsplit2 : Multiset.card (Multiset.filter (fun x => v < x) T₂) +
      Multiset.count v T₂ ≤ Multiset.card T₂ := by
    have hmon : Multiset.filter (fun x => v = x) T₂ ≤
        Multiset.filter (fun x => ¬ v < x) T₂ :=
      Multiset.monotone_filter_right T₂ (fun b hb => by omega)
    have := Multiset.card_le_card hmon
    calc Multiset.card (Multiset.filter (fun x => v < x) T₂) + Multiset.count v T₂
        ≤ Multiset.card (Multiset.filter (fun x => v < x) T₂) +
            Multiset.card (Multiset.filter (fun x => ¬ v < x) T₂) := by
          rw [Multiset.count_eq_card_filter_eq]
          omega
      _ = Multiset.card T₂ := by
          rw [← Multiset.card_add, Multiset.filter_add_not]
  have hcards : Multiset.card T₁ = Multiset.card T₂ := by rw [hcard₁, hcard₂]
  have hf1leS : Multiset.card (Multiset.filter (fun x => v < x) T₁) ≤
      Multiset.card (Multiset.filter (fun x => v < x) S) :=
    Multiset.card_le_card (Multiset.filter_le_filter _ hle₁)
  have hT2split : (S - T₂) + T₂ = S := tsub_add_cancel_of_le hle₂
  have hfS : Multiset.card (Multiset.filter (fun x => v < x) (S - T₂)) +
      Multiset.card (Multiset.filter (fun x => v < x) T₂) =
      Multiset.card (Multiset.filter (fun x => v < x) S) := by
    conv_rhs => rw [← hT2split]
    rw [Multiset.filter_add, Multiset.card_add]
  have hpos : Multiset.filter (fun x => v < x) (S - T₂) ≠ 0 := by
    intro hzero
    rw [hzero] at hfS
    simp only [Multiset.card_zero, Nat.zero_add] at hfS
    omega
  rcases Multiset.exists_mem_of_ne_zero hpos with ⟨w, hw⟩
  rcases Multiset.mem_filter.mp hw with ⟨hwS, hwv⟩
  have hvT2 : v ∈ T₂ := by
    rw [← Multiset.count_pos]
    omega
  have := hdom₂ v hvT2 w hwS
  omega

lemma isTopKN_unique {k : Nat} {T₁ T₂ S : Multiset Nat}
    (h₁ : IsTopKN k T₁ S) (h₂ : IsTopKN k T₂ S) : T₁ = T₂ := by
  refine Multiset.ext.mpr fun v => ?_
  by_contra hne
  rcases Nat.lt_or_ge (Multiset.count v T₁) (Multiset.count v T₂) with h | h
  · exact isTopKN_count_lt_false h₁ h₂ h
  · exact isTopKN_count_lt_false (v := v) h₂ h₁ (by omega)

/-- The naive reference (sort descending, take the first `k`) is a top-`k`
selection of the population. -/
lemma naiveTopK_isTopK (k : Nat) (l : List FileData) :
    IsTopK k (↑(naiveTopK k l)) (↑l) := by
  have hperm : (↑(sortByDesc l) : Multiset FileData) = ↑l :=
    Multiset.coe_eq_coe.mpr (sortByDesc_perm l)
  refine ⟨?_, ?_, ?_⟩
  · rw [← hperm]
    exact Multiset.coe_le.mpr (List.take_sublist k _).subperm
  · rw [Multiset.coe_card, Multiset.coe_card, naiveTopK, List.length_take,
      sortByDesc_length]
  · intro x hx y hy
    have hsd : (↑l : Multiset FileData) - ↑(naiveTopK k l) =
        ↑((sortByDesc l).drop k) := by
      rw [← hperm]
      conv_lhs => rw [← List.take_append_drop k (sortByDesc l)]
      rw [naiveTopK, ← Multiset.coe_add, add_tsub_cancel_left]
    rw [hsd] at hy
    rw [naiveTopK, Multiset.mem_coe] at hx
    rw [Multiset.mem_coe] at hy
    have hpw : SortedDesc ((sortByDesc l).take k ++ (sortByDesc l).drop k) := by
      rw [List.take_append_drop]
      exact sortByDesc_sorted l
    rcases List.pairwise_append.mp hpw with ⟨_, _, hcross⟩
    exact hcross x hx y hy

lemma size_injOn_of_nodup_map {S : Multiset FileData}
    (hnd : (S.map FileData.size).Nodup) :
    ∀ x ∈ S, ∀ y ∈ S, x.size = y.size → x = y := by
  intro x hx y hy hxy
  by_contra hne
  have hyS : y ∈ S.erase x := (Multiset.mem_erase_of_ne (Ne.symm hne)).mpr hy
  have hSsplit : S = x ::ₘ S.erase x := (Multiset.cons_erase hx).symm
  have hmem : x.size ∈ Multiset.map FileData.size (S.erase x) :=
    Multiset.mem_map.mpr ⟨y, hyS, hxy.symm⟩
  rw [hSsplit, Multiset.map_cons] at hnd
  exact (Multiset.nodup_cons.mp hnd).1 hmem

lemma eq_of_le_of_map_size_eq {T₁ T₂ S : Multiset FileData}
    (h₁ : T₁ ≤ S) (h₂ : T₂ ≤ S) (hnd : (S.map FileData.size).Nodup)
    (hm : T₁.map FileData.size = T₂.map FileData.size) : T₁ = T₂ := by
  have hndS : S.Nodup := Multiset.Nodup.of_map _ hnd
  have hnd₁ : T₁.Nodup := Multiset.nodup_of_le h₁ hndS
  have hnd₂ : T₂.Nodup := Multiset.nodup_of_le h₂ hndS
  have hmem : ∀ x, x ∈ T₁ ↔ x ∈ T₂ := by
    intro x
    constructor
    · intro hx
      have hxm : x.size ∈ T₂.map FileData.size := by
        rw [← hm]; exact Multiset.mem_map_of_mem _ hx
      rcases Multiset.mem_map.mp hxm with ⟨y, hy, hyx⟩
      have heq := size_injOn_of_nodup_map hnd y (Multiset.mem_of_le h₂ hy)
        x (Multiset.mem_of_le h₁ hx) hyx
      rw [← heq]; exact hy
    · intro hx
      have hxm : x.size ∈ T₁.map FileData.size := by
        rw [hm]; exact Multiset.mem_map_of_mem _ hx
      rcases Multiset.mem_map.mp hxm with ⟨y, hy, hyx⟩
      have heq := size_injOn_of_nodup_map hnd y (Multiset.mem_of_le h₁ hy)
        x (Multiset.mem_of_le h₂ hx) hyx
      rw [← heq]; exact hy
  exact le_antisymm ((Multiset.le_iff_subset hnd₁).mpr fun x hx => (hmem x).mp hx)
    ((Multiset.le_iff_subset hnd₂).mpr fun x hx => (hmem x).mpr hx)

lemma pairwise_size_ne_nodup {l : List FileData}
    (h : l.Pairwise (fun a b => a.size ≠ b.size)) :
    ((↑l : Multiset FileData).map FileData.size).Nodup := by
  rw [Multiset.map_coe, Multiset.coe_nodup]
  exact List.pairwise_map.mpr h

/-- The two top-`K` selections over the same population with pairwise
distinct sizes coincide as multisets. -/
lemma isTopK_unique_of_distinct {k : Nat} {T₁ T₂ S : Multiset FileData}
    (hnd : (S.map FileData.size).Nodup)
    (h₁ : IsTopK k T₁ S) (h₂ : IsTopK k T₂ S) : T₁ = T₂ := by
  have hN := isTopKN_unique (isTopK_map_size h₁) (isTopK_map_size h₂)
  exact eq_of_le_of_map_size_eq h₁.1 h₂.1 hnd hN

lemma mem_smart_insert {c : FileCollection} {f x : FileData}
    (h : x ∈ (c.smart_insert f).files) : x ∈ c.files ∨ x = f := by
  by_cases hfull : c.files.length < c.max_size
  · by_cases hK : (c.files ++ [f]).length = c.max_size
    · rw [smart_insert_files_sort hfull hK] at h
      rcases List.mem_append.mp ((sortByDesc_perm _).mem_iff.mp h) with h | h
      · exact Or.inl h
      · exact Or.inr (List.mem_singleton.mp h)
    · rw [smart_insert_files_push hfull hK] at h
      rcases List.mem_append.mp h with h | h
      · exact Or.inl h
      · exact Or.inr (List.mem_singleton.mp h)
  · cases hfip : c.find_insert_position f.size with
    | none =>
      rw [smart_insert_of_none hfull hfip] at h
      exact Or.inl h
    | some pos =>
      rw [smart_insert_files_ins hfull hfip] at h
      have hmem := (List.dropLast_sublist _).subset h
      rcases mem_insertIdx_any pos c.files hmem with h | h
      · exact Or.inr h
      · exact Or.inl h

lemma mem_foldl_smart_insert :
    ∀ (l : List FileData) (c : FileCollection) {x : FileData},
      x ∈ (l.foldl FileCollection.smart_insert c).files → x ∈ c.files ∨ x ∈ l := by
  intro l
  induction l with
  | nil => intro c x h; rw [List.foldl_nil] at h; exact Or.inl h
  | cons f t ih =>
    intro c x h
    rw [List.foldl_cons] at h
    rcases ih (c.smart_insert f) h with h | h
    · rcases mem_smart_insert h with h | h
      · exact Or.inl h
      · exact Or.inr (by rw [h]; exact List.mem_cons_self f t)
    · exact Or.inr (List.mem_cons_of_mem f h)

lemma walkStep_err (acc : List FileData) : walkStep acc WalkEntry.err = acc := rfl

lemma walkStep_nonfile (acc : List FileData) (md : Option Nat) (p : String) :
    walkStep acc (WalkEntry.ok false md p) = acc := rfl

lemma walkStep_nometa (acc : List FileData) (isFile : Bool) (p : String) :
    walkStep acc (WalkEntry.ok isFile none p) = acc := by
  cases isFile <;> rfl

lemma walkStep_zero (acc : List FileData) (isFile : Bool) (p : String) :
    walkStep acc (WalkEntry.ok isFile (some 0) p) = acc := by
  cases isFile <;> rfl

lemma mem_collectFiles_aux :
    ∀ (entries : List WalkEntry) (acc : List FileData) {fd : FileData},
      fd ∈ entries.foldl walkStep acc →
      fd ∈ acc ∨ (0 < fd.size ∧ WalkEntry.ok true (some fd.size) fd.path ∈ entries) := by
  intro entries
  induction entries with
  | nil => intro acc fd h; exact Or.inl h
  | cons e es ih =>
    intro acc fd h
    rw [List.foldl_cons] at h
    rcases ih (walkStep acc e) h with h | h
    · cases e with
      | err => exact Or.inl (by rwa [walkStep_err] at h)
      | ok isFile md p =>
        cases isFile with
        | false => exact Or.inl (by rwa [walkStep_nonfile] at h)
        | true =>
          cases md with
          | none => exact Or.inl (by rwa [walkStep_nometa] at h)
          | some len =>
            by_cases hlen : len = 0
            · subst hlen
              exact Or.inl (by rwa [walkStep_zero] at h)
            · have hstep : walkStep acc (WalkEntry.ok true (some len) p) =
                  acc ++ [FileData.mk p len] := by
                simp only [walkStep, Bool.not_true, Bool.false_eq_true, if_false]
                rw [if_neg hlen]
              rw [hstep] at h
              rcases List.mem_append.mp h with h | h
              · exact Or.inl h
              · right
                rw [List.mem_singleton.mp h]
                exact ⟨by show 0 < len; omega, List.mem_cons_self _ _⟩
    · exact Or.inr ⟨h.1, List.mem_cons_of_mem e h.2⟩

lemma mem_collectFiles {entries : List WalkEntry} {fd : FileData}
    (h : fd ∈ collectFiles entries) :
    0 < fd.size ∧ WalkEntry.ok true (some fd.size) fd.path ∈ entries := by
  rcases mem_collectFiles_aux entries [] h with h | h
  · exact absurd h (List.not_mem_nil fd)
  · exact h

lemma collectFiles_skip {e : WalkEntry} (he : ∀ acc, walkStep acc e = acc)
    (xs ys : List WalkEntry) :
    collectFiles (xs ++ e :: ys) = collectFiles (xs ++ ys) := by
  rw [collectFiles, collectFiles, List.foldl_append, List.foldl_append,
    List.foldl_cons, he]

/-- Composing top-`k` selections: a top-`k` of (a top-`k` of `S₁`, plus
`S₂`) is a top-`k` of `S₁ + S₂`. -/
lemma isTopKN_compose {k : Nat} {T₁ T S₁ S₂ : Multiset Nat}
    (h₁ : IsTopKN k T₁ S₁) (h : IsTopKN k T (T₁ + S₂)) : IsTopKN k T (S₁ + S₂) := by
  rcases h₁ with ⟨hle₁, hcard₁, hdom₁⟩
  rcases h with ⟨hle, hcard, hdom⟩
  have hcards₁ : Multiset.card T₁ ≤ Multiset.card S₁ := Multiset.card_le_card hle₁
  refine ⟨le_trans hle (add_le_add_right hle₁ S₂), ?_, ?_⟩
  · rw [Multiset.card_add] at hcard ⊢
    rcases nat_min_facts k (Multiset.card T₁ + Multiset.card S₂) with ⟨e1, e2⟩ | ⟨e1, e2⟩ <;>
      rcases nat_min_facts k (Multiset.card S₁ + Multiset.card S₂) with ⟨e3, e4⟩ | ⟨e3, e4⟩ <;>
      rcases nat_min_facts k (Multiset.card S₁) with ⟨e5, e6⟩ | ⟨e5, e6⟩ <;>
      omega
  · intro x hx y hy
    by_cases hyT : y ∈ T₁ + S₂ - T
    · exact hdom x hx y hyT
    · have hc1 : Multiset.count y (T₁ + S₂) ≤ Multiset.count y T := by
        have hz := Multiset.count_eq_zero.mpr hyT
        rw [Multiset.count_sub] at hz
        omega
      have hc2 : Multiset.count y T < Multiset.count y (S₁ + S₂) := by
        have hp := Multiset.count_pos.mpr hy
        rw [Multiset.count_sub] at hp
        omega
      have hcS₁ : Multiset.count y T₁ < Multiset.count y S₁ := by
        rw [Multiset.count_add] at hc1 hc2
        omega
      have hyS₁T₁ : y ∈ S₁ - T₁ := by
        rw [← Multiset.count_pos, Multiset.count_sub]
        omega
      by_contra hxy
      push_neg at hxy
      -- every element of T₁ dominates y, but x ∈ T is strictly below y:
      -- counting elements ≥ y forces T to be larger than its own bound.
      have hAT : ∀ z ∈ T₁ + S₂ - T, z ≤ x := fun z hz => hdom x hx z hz
      have hfzero : Multiset.filter (fun z => y ≤ z) (T₁ + S₂ - T) = 0 := by
        rw [Multiset.filter_eq_nil]
        intro z hz
        have := hAT z hz
        omega
      have hfA : Multiset.card (Multiset.filter (fun z => y ≤ z) (T₁ + S₂)) =
          Multiset.card (Multiset.filter (fun z => y ≤ z) T) := by
        conv_lhs => rw [← tsub_add_cancel_of_le hle]
        rw [Multiset.filter_add, hfzero, Multiset.card_add, Multiset.card_zero,
          Nat.zero_add]
      have hT₁y : ∀ z ∈ T₁, y ≤ z := fun z hz => hdom₁ z hz y hyS₁T₁
      have hfT₁ : Multiset.filter (fun z => y ≤ z) T₁ = T₁ :=
        Multiset.filter_eq_self.mpr hT₁y
      have hcT₁ : Multiset.card T₁ ≤
          Multiset.card (Multiset.filter (fun z => y ≤ z) (T₁ + S₂)) := by
        have hmono : Multiset.filter (fun z => y ≤ z) T₁ ≤
            Multiset.filter (fun z => y ≤ z) (T₁ + S₂) :=
          Multiset.filter_le_filter _ (Multiset.le_add_right T₁ S₂)
        have hcm := Multiset.card_le_card hmono
        rwa [hfT₁] at hcm
      have hxmem : x ∈ Multiset.filter (fun z => ¬ y ≤ z) T :=
        Multiset.mem_filter.mpr ⟨hx, by omega⟩
      have hcx : 0 < Multiset.card (Multiset.filter (fun z => ¬ y ≤ z) T) :=
        Multiset.card_pos_iff_exists_mem.mpr ⟨x, hxmem⟩
      have hTsplit : Multiset.card (Multiset.filter (fun z => y ≤ z) T) +
          Multiset.card (Multiset.filter (fun z => ¬ y ≤ z) T) = Multiset.card T := by
        rw [← Multiset.card_add, Multiset.filter_add_not]
      -- T₁ is exactly at the bound k
      have hT₁k : Multiset.card T₁ = k := by
        have hlt : T₁ < S₁ := lt_of_le_of_ne hle₁ (by
          intro hEq
          rw [hEq] at hcS₁
          omega)
        have hltc := Multiset.card_lt_card hlt
        rcases nat_min_facts k (Multiset.card S₁) with ⟨e1, e2⟩ | ⟨e1, e2⟩ <;> omega
      have hTk : Multiset.card T ≤ k := by
        rcases nat_min_facts k (Multiset.card (T₁ + S₂)) with ⟨e1, e2⟩ | ⟨e1, e2⟩ <;> omega
      omega

/-- The observable outcome the spec's merge laws talk about: the multiset of
kept sizes of a container. -/
def keptSizes (c : FileCollection) : Multiset Nat := ↑(c.files.map FileData.size)

lemma isTopK_files_self {c : FileCollection} (hg : GoodColl c) :
    IsTopK c.max_size (↑c.files) (↑c.files) := by
  refine isTopK_self ?_
  rw [Multiset.coe_card]
  exact hg.1

lemma merge_inv {K : Nat} {a : FileCollection} (b : FileCollection)
    (ha : a.max_size = K) (hga : GoodColl a) :
    GoodColl (a.merge b) ∧ (a.merge b).max_size = K ∧
      IsTopK K (↑(a.merge b).files) (↑a.files + ↑b.files) := by
  have hself : IsTopK K (↑a.files) (↑a.files) := by
    rw [← ha]; exact isTopK_files_self hga
  have h := foldl_smart_insert_inv (sortByDesc b.files) a (↑a.files) ha hga hself
  rw [Multiset.coe_eq_coe.mpr (sortByDesc_perm b.files)] at h
  rw [FileCollection.merge]
  exact h

lemma merge_sizesN {K : Nat} {a : FileCollection} (b : FileCollection)
    (ha : a.max_size = K) (hga : GoodColl a) :
    IsTopKN K (keptSizes (a.merge b)) (keptSizes a + keptSizes b) := by
  have hm := isTopK_map_size (merge_inv b ha hga).2.2
  rw [Multiset.map_add, Multiset.map_coe, Multiset.map_coe, Multiset.map_coe] at hm
  exact hm

lemma keptSizes_new (K : Nat) : keptSizes (FileCollection.new K) = 0 := rfl

lemma foldl_merge_inv {K : Nat} :
    ∀ (cs : List FileCollection) (acc : FileCollection) (S : Multiset Nat),
      acc.max_size = K → GoodColl acc → IsTopKN K (keptSizes acc) S →
      GoodColl (cs.foldl FileCollection.merge acc) ∧
        (cs.foldl FileCollection.merge acc).max_size = K ∧
        IsTopKN K (keptSizes (cs.foldl FileCollection.merge acc))
          (S + (cs.map keptSizes).sum) := by
  intro cs
  induction cs with
  | nil =>
    intro acc S hm hg ht
    rw [List.foldl_nil, List.map_nil, List.sum_nil, add_zero]
    exact ⟨hg, hm, ht⟩
  | cons d ds ih =>
    intro acc S hm hg ht
    rw [List.foldl_cons]
    have hmi := merge_inv d hm hg
    have hsz : IsTopKN K (keptSizes (acc.merge d)) (keptSizes acc + keptSizes d) :=
      merge_sizesN d hm hg
    have hcomp : IsTopKN K (keptSizes (acc.merge d)) (S + keptSizes d) :=
      isTopKN_compose ht hsz
    have hrec := ih (acc.merge d) (S + keptSizes d) hmi.2.1 hmi.1 hcomp
    rw [List.map_cons, List.sum_cons, ← add_assoc]
    exact hrec

/-! ### Claim theorems -/

/-- Claim C1: for a fixed input population whose qualifying (regular,
non-zero-size) files all have distinct sizes, the set of entries returned
by the scan equals exactly the K files with the largest sizes, agreeing
with the naive full-sort-then-take-K reference. -/
theorem claim_C1_topk_correct (K : Nat) (entries : List WalkEntry)
    (hdist : (collectFiles entries).Pairwise (fun a b => a.size ≠ b.size)) :
    (scan K entries).files.Perm (naiveTopK K (collectFiles entries)) ∧
      ∀ fd, fd ∈ (scan K entries).files ↔ fd ∈ naiveTopK K (collectFiles entries) := by
  have hinv := foldl_from_new_inv K (collectFiles entries)
  have hnaive := naiveTopK_isTopK K (collectFiles entries)
  have hnd := pairwise_size_ne_nodup hdist
  have heq := isTopK_unique_of_distinct hnd hinv.2.2 hnaive
  have hperm := Multiset.coe_eq_coe.mp heq
  rw [scan]
  exact ⟨hperm, fun fd => hperm.mem_iff⟩

/-- Witness for C1 at a concrete population with distinct sizes. -/
theorem claim_C1_topk_correct_witness :
    (scan 2 [WalkEntry.ok true (some 10) "a", WalkEntry.ok true (some 50) "b",
        WalkEntry.ok true (some 5) "c"]).files.Perm
      (naiveTopK 2 (collectFiles [WalkEntry.ok true (some 10) "a",
        WalkEntry.ok true (some 50) "b", WalkEntry.ok true (some 5) "c"])) ∧
    ∀ fd, fd ∈ (scan 2 [WalkEntry.ok true (some 10) "a",
        WalkEntry.ok true (some 50) "b", WalkEntry.ok true (some 5) "c"]).files ↔
      fd ∈ naiveTopK 2 (collectFiles [WalkEntry.ok true (some 10) "a",
        WalkEntry.ok true (some 50) "b", WalkEntry.ok true (some 5) "c"]) :=
  claim_C1_topk_correct 2 _ (by decide)

/-- Claim C2, counterexample: with K = 3 and only two qualifying files of
sizes 1 then 2, the scan returns them in traversal order `[1, 2]`, which is
not sorted descending — the code only sorts when the container reaches
capacity. -/
theorem claim_C2_counterexample :
    ¬ SortedDesc ((scan 3 [WalkEntry.ok true (some 1) "a",
      WalkEntry.ok true (some 2) "b"]).files) := by decide

/-- Claim C2 as amended: the result is sorted descending (with length
exactly K) whenever at least K qualifying files exist; with fewer than K
qualifying files the result holds exactly those files in traversal order
(not necessarily sorted). -/
theorem claim_C2_sorted_amended (K : Nat) (entries : List WalkEntry) :
    ((collectFiles entries).length < K →
      (scan K entries).files = collectFiles entries) ∧
    (K ≤ (collectFiles entries).length →
      (scan K entries).files.length = K ∧ SortedDesc (scan K entries).files) := by
  constructor
  · intro h
    rw [scan]
    have hu := foldl_under_cap (collectFiles entries) (FileCollection.new K) (by
      show (0 : Nat) + (collectFiles entries).length < K
      omega)
    rw [hu]
    rfl
  · intro h
    have hinv := foldl_from_new_inv K (collectFiles entries)
    rcases hinv with ⟨⟨hlen, hsort⟩, hmax, hle, hcard, hdom⟩
    rw [Multiset.coe_card, Multiset.coe_card, Nat.min_eq_left h] at hcard
    rw [scan]
    exact ⟨hcard, hsort (by rw [hmax]; exact hcard)⟩

/-- Witness for the amended C2, exercising both regimes. -/
theorem claim_C2_sorted_amended_witness :
    ((scan 5 [WalkEntry.ok true (some 1) "a",
        WalkEntry.ok true (some 2) "b"]).files =
      collectFiles [WalkEntry.ok true (some 1) "a",
        WalkEntry.ok true (some 2) "b"]) ∧
    ((scan 2 [WalkEntry.ok true (some 1) "a", WalkEntry.ok true (some 2) "b",
        WalkEntry.ok true (some 3) "c"]).files.length = 2 ∧
      SortedDesc (scan 2 [WalkEntry.ok true (some 1) "a",
        WalkEntry.ok true (some 2) "b", WalkEntry.ok true (some 3) "c"]).files) :=
  ⟨(claim_C2_sorted_amended 5 _).1 (by decide),
   (claim_C2_sorted_amended 2 _).2 (by decide)⟩

/-- Claim C3: the container constructed with capacity K never holds more
than K entries after any sequence of insertions, and every scan returns at
most K entries. -/
theorem claim_C3_capacity (K : Nat) (l : List FileData) (entries : List WalkEntry) :
    (l.foldl FileCollection.smart_insert (FileCollection.new K)).files.length ≤ K ∧
      (scan K entries).files.length ≤ K := by
  constructor
  · have h := (foldl_from_new_inv K l).1.1
    rwa [(foldl_from_new_inv K l).2.1] at h
  · rw [scan]
    have h := (foldl_from_new_inv K (collectFiles entries)).1.1
    rwa [(foldl_from_new_inv K (collectFiles entries)).2.1] at h

/-- Claim C5: with K = 0 every scan yields an empty result, and inserting
into the capacity-0 container leaves it empty and unchanged (the model is
total: no error and no panic occurs). -/
theorem claim_C5_k_zero (entries : List WalkEntry) (f : FileData) :
    (scan 0 entries).files = [] ∧
      (FileCollection.new 0).smart_insert f = FileCollection.new 0 := by
  constructor
  · have h := (foldl_from_new_inv 0 (collectFiles entries)).1.1
    rw [(foldl_from_new_inv 0 (collectFiles entries)).2.1] at h
    rw [scan]
    exact List.length_eq_zero.mp (by omega)
  · exact smart_insert_of_none (by decide)
      (find_insert_position_none_empty _ _ rfl)

/-- Claim C6: every entry of any scan result is a non-zero-size regular
file that actually occurred in the walked entries; zero-byte files and
non-regular entries never appear. -/
theorem claim_C6_exclusions (K : Nat) (entries : List WalkEntry) (fd : FileData)
    (h : fd ∈ (scan K entries).files) :
    0 < fd.size ∧ WalkEntry.ok true (some fd.size) fd.path ∈ entries := by
  rw [scan] at h
  rcases mem_foldl_smart_insert (collectFiles entries) (FileCollection.new K) h with
    h | h
  · exact absurd h (List.not_mem_nil fd)
  · exact mem_collectFiles h

/-- Witness for C6. -/
theorem claim_C6_exclusions_witness :
    0 < (FileData.mk "a" 5).size ∧
      WalkEntry.ok true (some (FileData.mk "a" 5).size) (FileData.mk "a" 5).path ∈
        [WalkEntry.err, WalkEntry.ok true (some 5) "a"] :=
  claim_C6_exclusions 1 [WalkEntry.err, WalkEntry.ok true (some 5) "a"]
    (FileData.mk "a" 5) (by decide)

/-- Claim C7: a walk error, a metadata-read failure, or a non-regular
entry contributes nothing — removing it from the entry stream leaves the
scan result unchanged, and the traversal continues over the rest. -/
theorem claim_C7_errors_absorbed (K : Nat) (xs ys : List WalkEntry)
    (isFile : Bool) (md : Option Nat) (p : String) :
    scan K (xs ++ WalkEntry.err :: ys) = scan K (xs ++ ys) ∧
      scan K (xs ++ WalkEntry.ok isFile none p :: ys) = scan K (xs ++ ys) ∧
      scan K (xs ++ WalkEntry.ok false md p :: ys) = scan K (xs ++ ys) := by
  refine ⟨?_, ?_, ?_⟩ <;> rw [scan, scan]
  · rw [collectFiles_skip walkStep_err xs ys]
  · rw [collectFiles_skip (fun acc => walkStep_nometa acc isFile p) xs ys]
  · rw [collectFiles_skip (fun acc => walkStep_nonfile acc md p) xs ys]

/-- Claim C8: when the container is full (at positive capacity, hence
sorted), an entry strictly smaller than the smallest kept size — which is
the last element's size — is discarded and the container is left
completely unchanged. -/
theorem claim_C8_reject_below_min (c : FileCollection) (f : FileData)
    (hs : SortedDesc c.files) (hfull : c.files.length = c.max_size)
    (hpos : 0 < c.max_size)
    (hlt : f.size < (c.files.getLastD default).size) :
    c.smart_insert f = c ∧
      ∀ x ∈ c.files, (c.files.getLastD default).size ≤ x.size := by
  have hne : c.files ≠ [] := by
    intro h
    rw [h] at hfull
    simp only [List.length_nil] at hfull
    omega
  refine ⟨smart_insert_of_none (by omega)
    (find_insert_position_none_less hne hlt), ?_⟩
  intro x hx
  exact sortedDesc_getLast_min hs hne hx

/-- Witness for C8. -/
theorem claim_C8_reject_below_min_witness :
    (FileCollection.mk [FileData.mk "a" 5, FileData.mk "b" 3] 2).smart_insert
        (FileData.mk "c" 2) =
      FileCollection.mk [FileData.mk "a" 5, FileData.mk "b" 3] 2 ∧
    ∀ x ∈ (FileCollection.mk [FileData.mk "a" 5, FileData.mk "b" 3] 2).files,
      ((FileCollection.mk [FileData.mk "a" 5, FileData.mk "b" 3] 2).files.getLastD
        default).size ≤ x.size :=
  claim_C8_reject_below_min
    (FileCollection.mk [FileData.mk "a" 5, FileData.mk "b" 3] 2)
    (FileData.mk "c" 2) (by decide) (by decide) (by decide) (by decide)

/-- Claim C9 (Scenario A): five files of sizes 10, 50, 5, 200, 1 with
K = 3 produce exactly the sizes [200, 50, 10], in that order. -/
theorem claim_C9_scenario_a :
    ((scan 3 [WalkEntry.ok true (some 10) "f1", WalkEntry.ok true (some 50) "f2",
      WalkEntry.ok true (some 5) "f3", WalkEntry.ok true (some 200) "f4",
      WalkEntry.ok true (some 1) "f5"]).files.map FileData.size) = [200, 50, 10] := by
  decide

/-- Claim C10: inserting into a full, sorted container (positive capacity)
an entry whose size equals the current smallest kept size admits the new
entry and evicts the previously held last entry, which has that same
minimal size — so the multiset of kept sizes is unchanged while the new
entry is now present. -/
theorem claim_C10_tie_replaces_min (c : FileCollection) (f : FileData)
    (hs : SortedDesc c.files) (hfull : c.files.length = c.max_size)
    (hpos : 0 < c.max_size)
    (heq : f.size = (c.files.getLastD default).size) :
    (c.smart_insert f).files.length = c.files.length ∧
      f ∈ (c.smart_insert f).files ∧
      (c.smart_insert f).files.Perm (f :: c.files.dropLast) ∧
      ((c.smart_insert f).files.map FileData.size).Perm
        (c.files.map FileData.size) ∧
      (∀ x ∈ c.files, (c.files.getLastD default).size ≤ x.size) := by
  have hne : c.files ≠ [] := by
    intro h
    rw [h] at hfull
    simp only [List.length_nil] at hfull
    omega
  have hless : ¬ f.size < (c.files.getLastD default).size := by omega
  rcases find_insert_position_spec hs hne hless with ⟨pos, hfip, hposlt, htake, hdrop⟩
  have hfilesEq := smart_insert_files_ins (by omega) hfip
  have hdl : (c.files.insertIdx pos f).dropLast =
      c.files.dropLast.insertIdx pos f := dropLast_insertIdx hposlt
  have hposdl : pos ≤ c.files.dropLast.length := by
    rw [List.length_dropLast]; omega
  have h1 : (c.smart_insert f).files.Perm (f :: c.files.dropLast) := by
    rw [hfilesEq, hdl]
    exact List.perm_insertIdx f _ hposdl
  have h5 : f.size = (c.files.getLast hne).size := by
    rw [heq, getLastD_eq_getLast hne]
  have h4 : c.files.map FileData.size =
      c.files.dropLast.map FileData.size ++ [(c.files.getLast hne).size] := by
    conv_lhs => rw [← List.dropLast_concat_getLast hne]
    rw [List.map_append]
    rfl
  refine ⟨?_, ?_, h1, ?_, ?_⟩
  · rw [hfilesEq, hdl, List.length_insertIdx pos _ hposdl, List.length_dropLast]
    omega
  · exact h1.mem_iff.mpr (List.mem_cons_self f _)
  · have h2 := h1.map FileData.size
    have h3 : (f.size :: c.files.dropLast.map FileData.size).Perm
        (c.files.dropLast.map FileData.size ++ [f.size]) :=
      (List.perm_append_singleton f.size _).symm
    rw [h4, ← h5]
    exact h2.trans h3
  · intro x hx
    exact sortedDesc_getLast_min hs hne hx

/-- Witness for C10: a tie at the minimum admits the new path and evicts
the old minimum. -/
theorem claim_C10_tie_replaces_min_witness :
    ((FileCollection.mk [FileData.mk "a" 5, FileData.mk "b" 3] 2).smart_insert
        (FileData.mk "c" 3)).files.length =
      (FileCollection.mk [FileData.mk "a" 5, FileData.mk "b" 3] 2).files.length ∧
    FileData.mk "c" 3 ∈
      ((FileCollection.mk [FileData.mk "a" 5, FileData.mk "b" 3] 2).smart_insert
        (FileData.mk "c" 3)).files ∧
    ((FileCollection.mk [FileData.mk "a" 5, FileData.mk "b" 3] 2).smart_insert
        (FileData.mk "c" 3)).files.Perm
      (FileData.mk "c" 3 ::
        (FileCollection.mk [FileData.mk "a" 5, FileData.mk "b" 3] 2).files.dropLast) ∧
    (((FileCollection.mk [FileData.mk "a" 5, FileData.mk "b" 3] 2).smart_insert
        (FileData.mk "c" 3)).files.map FileData.size).Perm
      ((FileCollection.mk [FileData.mk "a" 5, FileData.mk "b" 3] 2).files.map
        FileData.size) ∧
    ∀ x ∈ (FileCollection.mk [FileData.mk "a" 5, FileData.mk "b" 3] 2).files,
      ((FileCollection.mk [FileData.mk "a" 5,
        FileData.mk "b" 3] 2).files.getLastD default).size ≤ x.size :=
  claim_C10_tie_replaces_min
    (FileCollection.mk [FileData.mk "a" 5, FileData.mk "b" 3] 2)
    (FileData.mk "c" 3) (by decide) (by decide) (by decide) (by decide)

/-- Claim C4 (merge modelled from the spec, absent from `src/`): merging
two reachable same-capacity containers is commutative in the multiset of
kept sizes, grouping of merges does not matter, and folding any collection
of subtree results in any order yields the same multiset of kept sizes. -/
theorem claim_C4_merge_commutative (K : Nat) (a b c : FileCollection)
    (cs cs' : List FileCollection)
    (ha : a.max_size = K) (hb : b.max_size = K) (_hc : c.max_size = K)
    (hga : GoodColl a) (hgb : GoodColl b) (_hgc : GoodColl c)
    (hperm : cs.Perm cs') :
    keptSizes (a.merge b) = keptSizes (b.merge a) ∧
      keptSizes ((a.merge b).merge c) = keptSizes (a.merge (b.merge c)) ∧
      keptSizes (cs.foldl FileCollection.merge (FileCollection.new K)) =
        keptSizes (cs'.foldl FileCollection.merge (FileCollection.new K)) := by
  have hnewm : (FileCollection.new K).max_size = K := rfl
  have hnewg : GoodColl (FileCollection.new K) := good_new K
  have hnewt : IsTopKN K (keptSizes (FileCollection.new K)) 0 := by
    rw [keptSizes_new]
    exact ⟨le_refl _, by rw [Multiset.card_zero, Nat.min_zero],
      fun x hx => absurd hx (Multiset.not_mem_zero x)⟩
  refine ⟨?_, ?_, ?_⟩
  · have h1 := merge_sizesN b ha hga
    have h2 := merge_sizesN a hb hgb
    rw [add_comm] at h2
    exact isTopKN_unique h1 h2
  · have hab := merge_inv b ha hga
    have h1 := merge_sizesN c hab.2.1 hab.1
    have h2 := merge_sizesN b ha hga
    have hL : IsTopKN K (keptSizes ((a.merge b).merge c))
        ((keptSizes a + keptSizes b) + keptSizes c) := isTopKN_compose h2 h1
    have h3 := merge_sizesN (b.merge c) ha hga
    have h4 := merge_sizesN c hb hgb
    rw [add_comm] at h3
    have hR : IsTopKN K (keptSizes (a.merge (b.merge c)))
        ((keptSizes b + keptSizes c) + keptSizes a) := isTopKN_compose h4 h3
    have hre : (keptSizes b + keptSizes c) + keptSizes a =
        (keptSizes a + keptSizes b) + keptSizes c := by
      rw [add_comm (keptSizes b + keptSizes c) (keptSizes a), ← add_assoc]
    rw [hre] at hR
    exact isTopKN_unique hL hR
  · have hf1 := (foldl_merge_inv cs (FileCollection.new K) 0 hnewm hnewg hnewt).2.2
    have hf2 := (foldl_merge_inv cs' (FileCollection.new K) 0 hnewm hnewg hnewt).2.2
    have hsum : (cs.map keptSizes).sum = (cs'.map keptSizes).sum :=
      (hperm.map keptSizes).sum_eq
    rw [hsum] at hf1
    exact isTopKN_unique hf1 hf2

/-- Witness for C4 at concrete containers, including two containers that
keep different equal-size entries. -/
theorem claim_C4_merge_commutative_witness :
    keptSizes ((FileCollection.mk [FileData.mk "a" 5, FileData.mk "b" 3] 2).merge
        (FileCollection.mk [FileData.mk "x" 5, FileData.mk "y" 4] 2)) =
      keptSizes ((FileCollection.mk [FileData.mk "x" 5, FileData.mk "y" 4] 2).merge
        (FileCollection.mk [FileData.mk "a" 5, FileData.mk "b" 3] 2)) ∧
    keptSizes (((FileCollection.mk [FileData.mk "a" 5, FileData.mk "b" 3] 2).merge
          (FileCollection.mk [FileData.mk "x" 5, FileData.mk "y" 4] 2)).merge
        (FileCollection.mk [FileData.mk "z" 7] 2)) =
      keptSizes ((FileCollection.mk [FileData.mk "a" 5, FileData.mk "b" 3] 2).merge
        ((FileCollection.mk [FileData.mk "x" 5, FileData.mk "y" 4] 2).merge
          (FileCollection.mk [FileData.mk "z" 7] 2))) ∧
    keptSizes ([FileCollection.mk [FileData.mk "a" 5, FileData.mk "b" 3] 2,
        FileCollection.mk [FileData.mk "x" 5, FileData.mk "y" 4] 2].foldl
        FileCollection.merge (FileCollection.new 2)) =
      keptSizes ([FileCollection.mk [FileData.mk "x" 5, FileData.mk "y" 4] 2,
        FileCollection.mk [FileData.mk "a" 5, FileData.mk "b" 3] 2].foldl
        FileCollection.merge (FileCollection.new 2)) :=
  claim_C4_merge_commutative 2
    (FileCollection.mk [FileData.mk "a" 5, FileData.mk "b" 3] 2)
    (FileCollection.mk [FileData.mk "x" 5, FileData.mk "y" 4] 2)
    (FileCollection.mk [FileData.mk "z" 7] 2)
    [FileCollection.mk [FileData.mk "a" 5, FileData.mk "b" 3] 2,
      FileCollection.mk [FileData.mk "x" 5, FileData.mk "y" 4] 2]
    [FileCollection.mk [FileData.mk "x" 5, FileData.mk "y" 4] 2,
      FileCollection.mk [FileData.mk "a" 5, FileData.mk "b" 3] 2]
    rfl rfl rfl (by decide) (by decide) (by decide) (by decide)
